import Mathlib

/-!
Shallow embedding of `src/app.py` (Stock/ETF Data Viewer).

The program is a two-step form wizard: step 1 collects a ticker and a date
range, step 2 fetches daily prices and displays periodic returns (daily,
weekly, monthly) with summary statistics.

Modelling conventions:
* Prices are rationals (`ℚ`); IEEE floating point is not modelled, and a
  pandas `NaN` cell is modelled as `Option.none`.
* A trading day carries the two projections of its date that the program
  uses: `ord`, days since a fixed Monday epoch (driving the `W-FRI` weekly
  bins), and `monthIdx`, calendar months since the epoch month (driving the
  `M` monthly bins).
* Python strings are modelled as lists of character codes (`List Nat`);
  `str.strip` / `str.upper` act on ASCII codes exactly as CPython does for
  ASCII input.
-/

namespace StockScanner

/-- Trading-day date, reduced to the two projections `app.py` uses:
`ord` = days since a fixed Monday epoch, `monthIdx` = months since the
epoch month. -/
structure TradingDay where
  ord : Nat
  monthIdx : Nat
deriving DecidableEq, Repr

/-- The `freq` radio choice on step 2 (`"Daily" / "Weekly" / "Monthly"`). -/
inductive Freq where
  | daily
  | weekly
  | monthly
deriving DecidableEq, Repr

/-- `W-FRI` bin label of a day: the ordinal of the Friday ending its week.
With day 0 a Monday, Fridays are the days `≡ 4 (mod 7)`. -/
def weekFriKey (t : TradingDay) : Nat :=
  t.ord + (11 - t.ord % 7) % 7

/-- `M` (calendar month) bin label of a day. -/
def monthKey (t : TradingDay) : Nat :=
  t.monthIdx

/-- One step of pandas `Series.pct_change`: `(cur - prev) / prev`. -/
def pctChangeRow (prev cur : ℚ) : ℚ :=
  (cur - prev) / prev

/-- pandas `Series.pct_change`: the first entry is `NaN` (`none`), entry `t`
is `(x[t] - x[t-1]) / x[t-1]`. -/
def pct_change (xs : List ℚ) : List (Option ℚ) :=
  match xs with
  | [] => []
  | x :: rest => none :: List.zipWith (fun p c => some (pctChangeRow p c)) (x :: rest) rest

/-- Attach the `Return (%)` column (`pct_change() * 100`) to an indexed
close series: rows become `(index, Close, Return (%))`. -/
def outRows (idxClose : List (Nat × ℚ)) : List (Nat × ℚ × Option ℚ) :=
  List.zipWith (fun (p : Nat × ℚ) r => (p.1, p.2, r)) idxClose
    ((pct_change (idxClose.map Prod.snd)).map (Option.map (fun r => r * 100)))

/-- `out.dropna(inplace=True)`: keep exactly the rows whose `Return (%)`
cell is not `NaN`. -/
def dropnaOut (rows : List (Nat × ℚ × Option ℚ)) : List (Nat × ℚ × ℚ) :=
  rows.filterMap (fun r => r.2.2.map (fun v => (r.1, r.2.1, v)))

/-- `df["Close"].resample(rule).last()` on a sorted index: group maximal
runs of consecutive rows sharing a bin key and keep the bin key with the
last close of the run. -/
def resampleLast {α : Type} (key : α → Nat) : List (α × ℚ) → List (Nat × ℚ)
  | [] => []
  | (d, c) :: rest =>
    match resampleLast key rest with
    | [] => [(key d, c)]
    | (k, c') :: tail =>
      if key d = k then (k, c') :: tail else (key d, c) :: (k, c') :: tail

/-- Lines 112–128 of `app.py`: the frequency branch builds the close series
(raw daily closes, or period-last closes after resampling), attaches the
percent-change column, and drops `NaN` rows. -/
def computeOut (freq : Freq) (rows : List (TradingDay × ℚ)) : List (Nat × ℚ × ℚ) :=
  match freq with
  | .daily => dropnaOut (outRows (rows.map (fun r => (r.1.ord, r.2))))
  | .weekly => dropnaOut (outRows (resampleLast weekFriKey rows))
  | .monthly => dropnaOut (outRows (resampleLast monthKey rows))

/-! ### Returns pipeline lemmas -/

theorem dropna_outRows_aux (p : ℚ) (l : List (Nat × ℚ)) (hp : p ≠ 0)
    (hl : ∀ r ∈ l, r.2 ≠ 0) :
    dropnaOut (List.zipWith (fun (q : Nat × ℚ) r => (q.1, q.2, r)) l
        ((List.zipWith (fun a b => some (pctChangeRow a b)) (p :: l.map Prod.snd)
            (l.map Prod.snd)).map (Option.map (fun r => r * 100))))
      = List.zipWith (fun (pc : ℚ) (cur : Nat × ℚ) => (cur.1, cur.2, (cur.2 / pc - 1) * 100))
          (p :: l.map Prod.snd) l := by
  induction l generalizing p with
  | nil => rfl
  | cons x t ih =>
    obtain ⟨i, c⟩ := x
    have hc : c ≠ 0 := hl (i, c) (List.mem_cons_self _ _)
    have ht : ∀ r ∈ t, r.2 ≠ 0 := fun r hr => hl r (List.mem_cons_of_mem _ hr)
    have hrow : pctChangeRow p c = c / p - 1 := by
      rw [pctChangeRow, sub_div, div_self hp]
    simp only [List.map_cons, List.zipWith_cons_cons, List.map_cons, Option.map_some,
      dropnaOut, List.filterMap_cons, Option.map_some, hrow]
    rw [show (List.filterMap _ _ = _) from ih c hc ht]
    rfl

theorem dropna_outRows (idxClose : List (Nat × ℚ)) (hpos : ∀ r ∈ idxClose, r.2 ≠ 0) :
    dropnaOut (outRows idxClose)
      = List.zipWith (fun (prev cur : Nat × ℚ) => (cur.1, cur.2, (cur.2 / prev.2 - 1) * 100))
          idxClose idxClose.tail := by
  match idxClose with
  | [] => rfl
  | (i, c) :: t =>
    have hc : c ≠ 0 := hpos (i, c) (List.mem_cons_self _ _)
    have ht : ∀ r ∈ t, r.2 ≠ 0 := fun r hr => hpos r (List.mem_cons_of_mem _ hr)
    have h1 := dropna_outRows_aux c t hc ht
    simp only [outRows, pct_change, List.map_cons, List.map_cons, Option.map_none,
      List.zipWith_cons_cons, dropnaOut, List.filterMap_cons] at h1 ⊢
    rw [h1]
    have h2 : (c :: t.map Prod.snd) = ((i, c) :: t).map Prod.snd := by simp
    rw [h2, List.zipWith_map_left]
    rfl

/-- Claim C1: for a non-empty daily price series with non-zero closes, the
Daily branch produces, for every time `t ≥ 1`, the return
`(close[t]/close[t-1] - 1) * 100` indexed by the date of `t`, and the first
row (whose return is `NaN`) is dropped, so the output has one row fewer
than the input. -/
theorem daily_returns_spec (rows : List (TradingDay × ℚ)) (hne : rows ≠ [])
    (hpos : ∀ r ∈ rows, r.2 ≠ 0) :
    computeOut Freq.daily rows
        = List.zipWith (fun (prev cur : TradingDay × ℚ) =>
            (cur.1.ord, cur.2, (cur.2 / prev.2 - 1) * 100)) rows rows.tail
      ∧ (computeOut Freq.daily rows).length = rows.length - 1 := by
  have hpos' : ∀ r ∈ rows.map (fun r => (r.1.ord, r.2)), r.2 ≠ 0 := by
    intro r hr
    obtain ⟨a, ha, rfl⟩ := List.mem_map.mp hr
    exact hpos a ha
  have h := dropna_outRows (rows.map (fun r => (r.1.ord, r.2))) hpos'
  constructor
  · show dropnaOut (outRows _) = _
    rw [h]
    rw [List.zipWith_map_left]
    have htail : (rows.map (fun r => (r.1.ord, r.2))).tail = rows.tail.map (fun r => (r.1.ord, r.2)) := by
      cases rows <;> simp
    rw [htail, List.zipWith_map_right]
  · show (dropnaOut (outRows _)).length = _
    rw [h]
    cases rows with
    | nil => simp
    | cons x t => simp [List.length_zipWith]

/-- Witness for C1 at a concrete input. -/
theorem daily_returns_spec_witness :
    ([(⟨0, 0⟩, 4), (⟨1, 0⟩, 5), (⟨2, 0⟩, 2)] : List (TradingDay × ℚ)) ≠ []
      ∧ computeOut Freq.daily [(⟨0, 0⟩, 4), (⟨1, 0⟩, 5), (⟨2, 0⟩, 2)]
          = List.zipWith (fun (prev cur : TradingDay × ℚ) =>
              (cur.1.ord, cur.2, (cur.2 / prev.2 - 1) * 100))
              [(⟨0, 0⟩, 4), (⟨1, 0⟩, 5), (⟨2, 0⟩, 2)]
              [(⟨1, 0⟩, 5), (⟨2, 0⟩, 2)]
      ∧ computeOut Freq.daily [(⟨0, 0⟩, 4), (⟨1, 0⟩, 5), (⟨2, 0⟩, 2)]
          = [(1, 5, 25), (2, 2, -60)] :=
  ⟨by decide,
   (daily_returns_spec _ (by decide) (by decide)).1,
   by
    rw [(daily_returns_spec [(⟨0, 0⟩, 4), (⟨1, 0⟩, 5), (⟨2, 0⟩, 2)] (by decide) (by decide)).1]
    norm_num⟩

/-! ### Step wizard (lines 22–29) -/

/-- `go_next`: `st.session_state.step = min(2, st.session_state.step + 1)`. -/
def go_next (s : Nat) : Nat := min 2 (s + 1)

/-- `go_back`: `st.session_state.step = max(1, st.session_state.step - 1)`. -/
def go_back (s : Nat) : Nat := max 1 (s - 1)

/-- Session step values reachable from the initialization `step = 1` by any
sequence of the two button callbacks. -/
inductive StepReachable : Nat → Prop where
  | init : StepReachable 1
  | next : ∀ {s}, StepReachable s → StepReachable (go_next s)
  | back : ∀ {s}, StepReachable s → StepReachable (go_back s)

/-- Claim C6: the wizard starts at step 1, `go_next` caps the step at 2,
`go_back` floors it at 1, and every reachable step value is 1 or 2. -/
theorem wizard_two_steps :
    StepReachable 1
      ∧ (∀ s, go_next s ≤ 2)
      ∧ (∀ s, 1 ≤ go_back s)
      ∧ (∀ s, StepReachable s → s = 1 ∨ s = 2) := by
  refine ⟨StepReachable.init, fun s => min_le_left _ _, fun s => le_max_left _ _,
    fun s h => ?_⟩
  induction h with
  | init => exact Or.inl rfl
  | next _ ih => rcases ih with rfl | rfl <;> exact Or.inr (by decide)
  | back _ ih => rcases ih with rfl | rfl <;> exact Or.inl (by decide)

/-- Witness for C6: the state reached by one `go_next` from the initial
state is inside `{1, 2}`. -/
theorem wizard_two_steps_witness :
    StepReachable (go_next 1) ∧ (go_next 1 = 1 ∨ go_next 1 = 2) :=
  ⟨StepReachable.next StepReachable.init,
   wizard_two_steps.2.2.2 (go_next 1) (StepReachable.next StepReachable.init)⟩

/-! ### Summary statistics (lines 160–183) -/

/-- The `Return (%)` column of `out`. -/
def retCol (out : List (Nat × ℚ × ℚ)) : List ℚ := out.map (fun r => r.2.2)

/-- pandas `Series.mean`: sum divided by count. (On an empty series pandas
yields `NaN`; here `0 / 0 = 0`. The claims only use the mean of non-empty
series.) -/
def seriesMean (l : List ℚ) : ℚ := l.sum / l.length

/-- pandas `Series.std` squared: the `ddof = 1` sample variance
`Σ (x - mean)² / (n - 1)`. The square root `std` takes on top of this is
irrational in general, so statements about the standard deviation are
phrased through its square. -/
def seriesVar (l : List ℚ) : ℚ :=
  (l.map (fun x => (x - seriesMean l) ^ 2)).sum / ((l.length : ℚ) - 1)

/-- The summary-statistics record built on lines 162–176. -/
structure Stats where
  observations : Nat
  meanReturn : ℚ
  minReturn : Option ℚ
  maxReturn : Option ℚ
  varReturn : ℚ
  winRate : ℚ
  lossRate : ℚ
  flatRate : ℚ
deriving DecidableEq, Repr

/-- Lines 162–176 of `app.py`: statistics over the `Return (%)` column of
`out` (after `dropna`). `(out["Return (%)"] > 0).mean()` is the count of
strictly positive returns over the series length, and similarly for
`< 0` / `== 0`. -/
def statsOf (out : List (Nat × ℚ × ℚ)) : Stats where
  observations := out.length
  meanReturn := seriesMean (retCol out)
  minReturn := (retCol out).min?
  maxReturn := (retCol out).max?
  varReturn := seriesVar (retCol out)
  winRate := ((retCol out).countP (fun r => decide (0 < r)) : ℚ) / ((retCol out).length) * 100
  lossRate := ((retCol out).countP (fun r => decide (r < 0)) : ℚ) / ((retCol out).length) * 100
  flatRate := ((retCol out).countP (fun r => decide (r = 0)) : ℚ) / ((retCol out).length) * 100

theorem count_sign_partition (l : List ℚ) :
    l.countP (fun r => decide (0 < r)) + l.countP (fun r => decide (r < 0))
        + l.countP (fun r => decide (r = 0)) = l.length := by
  induction l with
  | nil => rfl
  | cons x t ih =>
    simp only [List.countP_cons, List.length_cons]
    rcases lt_trichotomy 0 x with hx | hx | hx
    · have e1 : (decide (0 < x)) = true := decide_eq_true hx
      have e2 : (decide (x < 0)) = false := decide_eq_false (not_lt_of_gt hx)
      have e3 : (decide (x = 0)) = false := decide_eq_false (ne_of_gt hx)
      simp only [e1, e2, e3]
      simp
      omega
    · have e1 : (decide (0 < x)) = false := decide_eq_false (by rw [← hx]; exact lt_irrefl 0)
      have e2 : (decide (x < 0)) = false := decide_eq_false (by rw [← hx]; exact lt_irrefl 0)
      have e3 : (decide (x = 0)) = true := decide_eq_true hx.symm
      simp only [e1, e2, e3]
      simp
      omega
    · have e1 : (decide (0 < x)) = false := decide_eq_false (not_lt_of_gt hx)
      have e2 : (decide (x < 0)) = true := decide_eq_true hx
      have e3 : (decide (x = 0)) = false := decide_eq_false (ne_of_lt hx)
      simp only [e1, e2, e3]
      simp
      omega

theorem rates_sum_aux (out : List (Nat × ℚ × ℚ)) (h : out.length ≠ 0) :
    (statsOf out).winRate + (statsOf out).lossRate + (statsOf out).flatRate = 100 := by
  have hn : (retCol out).length ≠ 0 := by
    simpa [retCol] using h
  have hnq : ((retCol out).length : ℚ) ≠ 0 := Nat.cast_ne_zero.mpr hn
  have hcount : (((retCol out).countP (fun r => decide (0 < r)) : ℚ)
      + ((retCol out).countP (fun r => decide (r < 0)) : ℚ)
      + ((retCol out).countP (fun r => decide (r = 0)) : ℚ))
      = (((retCol out).length : ℕ) : ℚ) := by
    exact_mod_cast congrArg (Nat.cast : ℕ → ℚ) (count_sign_partition (retCol out))
  show ((retCol out).countP (fun r => decide (0 < r)) : ℚ) / ((retCol out).length) * 100
      + ((retCol out).countP (fun r => decide (r < 0)) : ℚ) / ((retCol out).length) * 100
      + ((retCol out).countP (fun r => decide (r = 0)) : ℚ) / ((retCol out).length) * 100 = 100
  rw [div_mul_eq_mul_div, div_mul_eq_mul_div, div_mul_eq_mul_div,
    div_add_div_same, div_add_div_same, ← add_mul, ← add_mul, hcount,
    mul_comm, mul_div_assoc, div_self hnq, mul_one]

/-- Claim C3: for every returns series the program produces (any frequency,
any input rows), if the series is non-empty then the win, loss, and flat
rates sum to exactly 100. -/
theorem win_loss_flat_sum_100 (freq : Freq) (rows : List (TradingDay × ℚ))
    (h : (statsOf (computeOut freq rows)).observations ≠ 0) :
    (statsOf (computeOut freq rows)).winRate + (statsOf (computeOut freq rows)).lossRate
        + (statsOf (computeOut freq rows)).flatRate = 100 :=
  rates_sum_aux (computeOut freq rows) h

/-- Witness for C3 at a concrete two-row daily series. -/
theorem win_loss_flat_sum_100_witness :
    (statsOf (computeOut Freq.daily [(⟨0, 0⟩, 4), (⟨1, 0⟩, 5)])).observations ≠ 0
      ∧ (statsOf (computeOut Freq.daily [(⟨0, 0⟩, 4), (⟨1, 0⟩, 5)])).winRate
          + (statsOf (computeOut Freq.daily [(⟨0, 0⟩, 4), (⟨1, 0⟩, 5)])).lossRate
          + (statsOf (computeOut Freq.daily [(⟨0, 0⟩, 4), (⟨1, 0⟩, 5)])).flatRate = 100 :=
  ⟨by decide, win_loss_flat_sum_100 Freq.daily _ (by decide)⟩

/-! ### Ticker normalization (lines 41–44 and 59–62) -/

/-- The whitespace `str.strip()` removes, at ASCII codes: space, tab,
newline, vertical tab, form feed, carriage return. -/
def pyWhitespace (c : Nat) : Bool :=
  c = 32 || c = 9 || c = 10 || c = 11 || c = 12 || c = 13

/-- Python `str.upper` on one ASCII code: `a`–`z` map to `A`–`Z`, all other
codes are unchanged. -/
def pyUpperChar (c : Nat) : Nat :=
  if 97 ≤ c ∧ c ≤ 122 then c - 32 else c

/-- Python `str.upper` over a string modelled as its character codes. -/
def pyUpper (s : List Nat) : List Nat := s.map pyUpperChar

/-- Leading-whitespace removal (left half of `str.strip`). -/
def pyLstrip (s : List Nat) : List Nat := s.dropWhile pyWhitespace

/-- Trailing-whitespace removal (right half of `str.strip`). -/
def pyRstrip (s : List Nat) : List Nat := (s.reverse.dropWhile pyWhitespace).reverse

/-- Python `str.strip()`: whitespace removed from both ends. -/
def pyStrip (s : List Nat) : List Nat := pyRstrip (pyLstrip s)

/-- Lines 41–44 and 60: the ticker stored into `st.session_state.ticker`
(and later passed to `yf.download`) is `text_input(...).strip().upper()`. -/
def storedTicker (input : List Nat) : List Nat := pyUpper (pyStrip input)

theorem pyWhitespace_pyUpperChar (c : Nat) :
    pyWhitespace (pyUpperChar c) = pyWhitespace c := by
  unfold pyUpperChar
  split
  · rename_i h
    have h1 : pyWhitespace (c - 32) = false := by
      simp only [pyWhitespace, Bool.or_eq_false_iff, decide_eq_false_iff_not]
      omega
    have h2 : pyWhitespace c = false := by
      simp only [pyWhitespace, Bool.or_eq_false_iff, decide_eq_false_iff_not]
      omega
    rw [h1, h2]
  · rfl

theorem dropWhile_dropWhile_self {α : Type} (p : α → Bool) (l : List α) :
    (l.dropWhile p).dropWhile p = l.dropWhile p := by
  induction l with
  | nil => rfl
  | cons x t ih =>
    by_cases h : p x
    · simp [List.dropWhile_cons, h, ih]
    · simp [List.dropWhile_cons, h]

theorem dropWhile_pyUpper (s : List Nat) :
    (pyUpper s).dropWhile pyWhitespace = pyUpper (s.dropWhile pyWhitespace) := by
  induction s with
  | nil => rfl
  | cons c t ih =>
    show (pyUpperChar c :: pyUpper t).dropWhile pyWhitespace = _
    rw [List.dropWhile_cons, List.dropWhile_cons, pyWhitespace_pyUpperChar]
    by_cases h : pyWhitespace c
    · rw [if_pos h, if_pos h, ih]
    · rw [if_neg h, if_neg h]
      rfl

theorem pyLstrip_pyUpper (s : List Nat) : pyLstrip (pyUpper s) = pyUpper (pyLstrip s) :=
  dropWhile_pyUpper s

theorem pyRstrip_pyUpper (s : List Nat) : pyRstrip (pyUpper s) = pyUpper (pyRstrip s) := by
  have h1 : (pyUpper s).reverse = pyUpper s.reverse := by
    simp [pyUpper]
  show ((pyUpper s).reverse.dropWhile pyWhitespace).reverse
      = pyUpper ((s.reverse.dropWhile pyWhitespace).reverse)
  rw [h1, dropWhile_pyUpper]
  simp [pyUpper]

theorem pyStrip_pyUpper (s : List Nat) : pyStrip (pyUpper s) = pyUpper (pyStrip s) := by
  unfold pyStrip
  rw [pyLstrip_pyUpper, pyRstrip_pyUpper]

theorem pyLstrip_idem (s : List Nat) : pyLstrip (pyLstrip s) = pyLstrip s :=
  dropWhile_dropWhile_self pyWhitespace s

theorem pyRstrip_idem (s : List Nat) : pyRstrip (pyRstrip s) = pyRstrip s := by
  unfold pyRstrip
  rw [List.reverse_reverse, dropWhile_dropWhile_self]

theorem length_dropWhile_le {α : Type} (p : α → Bool) (l : List α) :
    (l.dropWhile p).length ≤ l.length := by
  induction l with
  | nil => simp
  | cons x t ih =>
    rw [List.dropWhile_cons]
    by_cases h : p x
    · rw [if_pos h]
      exact ih.trans (by simp)
    · rw [if_neg h]

theorem dropWhile_eq_self_head {α : Type} (p : α → Bool) (a : α) (l : List α)
    (h : List.dropWhile p (a :: l) = a :: l) : p a = false := by
  by_cases hp : p a
  · exfalso
    rw [List.dropWhile_cons, if_pos hp] at h
    have hlen : (List.dropWhile p l).length ≤ l.length := length_dropWhile_le p l
    rw [h] at hlen
    simp at hlen
  · simpa using hp

theorem pyLstrip_pyRstrip (x : List Nat) (hx : pyLstrip x = x) :
    pyLstrip (pyRstrip x) = pyRstrip x := by
  have h0 : x.reverse.takeWhile pyWhitespace ++ x.reverse.dropWhile pyWhitespace
      = x.reverse := List.takeWhile_append_dropWhile pyWhitespace x.reverse
  have hsplit : x = pyRstrip x ++ (x.reverse.takeWhile pyWhitespace).reverse := by
    conv_lhs => rw [← List.reverse_reverse x, ← h0]
    rw [List.reverse_append]
    rfl
  cases hr : pyRstrip x with
  | nil => rfl
  | cons a y =>
    have hx2 : x = a :: (y ++ (x.reverse.takeWhile pyWhitespace).reverse) := by
      conv_lhs => rw [hsplit]
      rw [hr, List.cons_append]
    have hpa : pyWhitespace a = false := by
      apply dropWhile_eq_self_head pyWhitespace a (y ++ (x.reverse.takeWhile pyWhitespace).reverse)
      rw [← hx2]
      exact hx
    show List.dropWhile pyWhitespace (a :: y) = a :: y
    rw [List.dropWhile_cons, if_neg (by simp [hpa])]

theorem pyStrip_idem (s : List Nat) : pyStrip (pyStrip s) = pyStrip s := by
  show pyRstrip (pyLstrip (pyRstrip (pyLstrip s))) = pyRstrip (pyLstrip s)
  rw [pyLstrip_pyRstrip (pyLstrip s) (pyLstrip_idem s), pyRstrip_idem]

theorem pyUpperChar_idem (c : Nat) : pyUpperChar (pyUpperChar c) = pyUpperChar c := by
  unfold pyUpperChar
  split
  · rename_i h
    rw [if_neg (by omega)]
  · rfl

theorem pyUpper_idem (s : List Nat) : pyUpper (pyUpper s) = pyUpper s := by
  induction s with
  | nil => rfl
  | cons c t ih =>
    show pyUpperChar (pyUpperChar c) :: pyUpper (pyUpper t) = pyUpperChar c :: pyUpper t
    rw [pyUpperChar_idem, ih]

/-- Claim C8: the stored ticker is the input stripped of edge whitespace
and uppercased, and re-normalizing an already-stored ticker leaves it
unchanged (idempotence). -/
theorem ticker_normalization (input : List Nat) :
    storedTicker input = pyUpper (pyStrip input)
      ∧ storedTicker (storedTicker input) = storedTicker input := by
  refine ⟨rfl, ?_⟩
  show pyUpper (pyStrip (pyUpper (pyStrip input))) = pyUpper (pyStrip input)
  rw [pyStrip_pyUpper, pyStrip_idem, pyUpper_idem]

/-! ### Date-range widget bounds (lines 35–57 and 93–97) -/

/-- `MIN_DAY = date(2000, 1, 1)`, as days since 1970-01-01. -/
def MIN_DAY : Nat := 10957

/-- `st.date_input` with `min_value`/`max_value` set: the widget only lets
the user submit a date inside the bounds, i.e. the stored value is the
user's choice clamped into `[mn, mx]`. -/
def date_input (mn mx choice : Nat) : Nat := max mn (min mx choice)

/-- Lines 46–62: the start/end dates stored into session state by a step-1
render on day `today` (`MAX_DAY = date.today()`), given the user's raw
choices.  These stored values are exactly the arguments later passed to
`yf.download` (lines 93–97). -/
def storedDates (today startChoice endChoice : Nat) : Nat × Nat :=
  (date_input MIN_DAY today startChoice, date_input MIN_DAY today endChoice)

/-- Claim C10: every stored (hence every fetched) start/end date lies
between 2000-01-01 and the current day inclusive; `fetchDay ≥ storeDay`
covers a fetch issued on a later day than the step-1 render that stored the
dates. -/
theorem fetch_dates_in_range (storeDay fetchDay startChoice endChoice : Nat)
    (h1 : MIN_DAY ≤ storeDay) (h2 : storeDay ≤ fetchDay) :
    MIN_DAY ≤ (storedDates storeDay startChoice endChoice).1
      ∧ (storedDates storeDay startChoice endChoice).1 ≤ fetchDay
      ∧ MIN_DAY ≤ (storedDates storeDay startChoice endChoice).2
      ∧ (storedDates storeDay startChoice endChoice).2 ≤ fetchDay := by
  unfold storedDates date_input
  refine ⟨le_max_left _ _, ?_, le_max_left _ _, ?_⟩ <;>
    exact max_le (h1.trans h2) ((min_le_left _ _).trans h2)

/-- Witness for C10 at concrete days and choices. -/
theorem fetch_dates_in_range_witness :
    MIN_DAY ≤ 20000 ∧ (20000 : Nat) ≤ 20001
      ∧ (MIN_DAY ≤ (storedDates 20000 5 99999).1
          ∧ (storedDates 20000 5 99999).1 ≤ 20001
          ∧ MIN_DAY ≤ (storedDates 20000 5 99999).2
          ∧ (storedDates 20000 5 99999).2 ≤ 20001) :=
  ⟨by decide, by decide, fetch_dates_in_range 20000 20001 5 99999 (by decide) (by decide)⟩

/-! ### Display table and step-2 rendering (lines 87–157 and 185–189) -/

/-- pandas `.round(2)`: round to 2 decimal places. (pandas rounds float
ties to even; exact ties, which differ only there, round half-up here.) -/
def round2 (q : ℚ) : ℚ := (round (q * 100) : ℚ) / 100

/-- `pd.to_numeric(col, errors="coerce")` on a cell that is already
numeric: the coercion succeeds with the same value. -/
def coerceNumeric (q : ℚ) : Option ℚ := some q

/-- Lines 134–149: `out_display` — coerce `Close` / `Return (%)` to
numbers, round both to 2 decimals, and drop the rows where either coercion
failed. -/
def outDisplay (out : List (Nat × ℚ × ℚ)) : List (Nat × ℚ × ℚ) :=
  out.filterMap (fun r =>
    match coerceNumeric r.2.1, coerceNumeric r.2.2 with
    | some c, some v => some (r.1, round2 c, round2 v)
    | _, _ => none)

/-- Line 134–138: the flattened column names of `out_display` —
`reset_index` puts the date index first, then the `Close` and `Return (%)`
data columns (a MultiIndex level from the provider is flattened to its
first component). -/
def outDisplayCols : List String := ["Date", "Close", "Return (%)"]

/-- What step 2 renders in place of the main returns table. -/
inductive MainView where
  | noData
  | warningMsg (msg : String)
  | table (cols : List String) (rows : List (Nat × ℚ × ℚ))
deriving DecidableEq, Repr

/-- Everything the step-2 body puts on the screen: the main table area,
and the statistics table when the data guard passed. -/
structure StepTwoView where
  main : MainView
  statsTable : Option Stats
deriving DecidableEq, Repr

/-- Lines 99–157 and 185–189: the step-2 body after a fetch. `none` models
no stored dataframe, an empty row list models `df.empty`; when the guard on
line 100 passes, the frequency branch runs and the display table and
statistics render, the `st.warning` branch being taken only when the
flattened columns lack `Close` or `Return (%)`. -/
def stepTwoRender (stored : Option (List (TradingDay × ℚ))) (freq : Freq) : StepTwoView :=
  match stored with
  | none => ⟨MainView.noData, none⟩
  | some rows =>
    if rows.isEmpty then ⟨MainView.noData, none⟩
    else
      if "Close" ∈ outDisplayCols ∧ "Return (%)" ∈ outDisplayCols then
        ⟨MainView.table outDisplayCols (outDisplay (computeOut freq rows)),
         some (statsOf (computeOut freq rows))⟩
      else
        ⟨MainView.warningMsg "No valid Close/Return columns found in output.",
         some (statsOf (computeOut freq rows))⟩

/-- Counterexample to claim C4 as stated: a fetch that stores an empty
dataframe is detected by the `df.empty` guard, but nothing at all is
rendered — in particular no user-visible warning. -/
theorem empty_fetch_shows_no_warning :
    stepTwoRender (some []) Freq.daily = ⟨MainView.noData, none⟩
      ∧ (stepTwoRender (some []) Freq.daily).main
          ≠ MainView.warningMsg "No valid Close/Return columns found in output." := by
  exact ⟨rfl, by decide⟩

/-- Claim C4 (amended): a missing or empty fetch result is detected by the
`df.empty` guard and the whole display/statistics step is silently skipped
— no tables, no crash, and also no warning; the warning message is
reserved for processed outputs lacking the `Close`/`Return (%)` columns. -/
theorem empty_fetch_guard (stored : Option (List (TradingDay × ℚ))) (freq : Freq)
    (h : stored = none ∨ stored = some []) :
    stepTwoRender stored freq = ⟨MainView.noData, none⟩ := by
  rcases h with rfl | rfl <;> rfl

/-- Witness for the amended C4 at the concrete empty dataframe. -/
theorem empty_fetch_guard_witness :
    ((some [] : Option (List (TradingDay × ℚ))) = none
        ∨ (some [] : Option (List (TradingDay × ℚ))) = some [])
      ∧ stepTwoRender (some []) Freq.daily = ⟨MainView.noData, none⟩ :=
  ⟨Or.inr rfl, empty_fetch_guard (some []) Freq.daily (Or.inr rfl)⟩

/-- Claim C7: for every successful fetch with data (non-empty stored rows)
and any frequency, step 2 shows the returns table with exactly the columns
`Date`, `Close`, `Return (%)`, plus the summary-statistics table. -/
theorem successful_fetch_output (rows : List (TradingDay × ℚ)) (freq : Freq)
    (hne : rows ≠ []) :
    (stepTwoRender (some rows) freq).main
        = MainView.table ["Date", "Close", "Return (%)"] (outDisplay (computeOut freq rows))
      ∧ (stepTwoRender (some rows) freq).statsTable = some (statsOf (computeOut freq rows)) := by
  have he : rows.isEmpty = false := by
    cases rows
    · exact absurd rfl hne
    · rfl
  simp only [stepTwoRender, he, Bool.false_eq_true, if_false, ite_false]
  rw [if_pos (by decide)]
  exact ⟨rfl, rfl⟩

/-- Witness for C7 at a concrete one-row dataframe. -/
theorem successful_fetch_output_witness :
    ([(⟨0, 0⟩, 4)] : List (TradingDay × ℚ)) ≠ []
      ∧ ((stepTwoRender (some [(⟨0, 0⟩, 4)]) Freq.daily).main
            = MainView.table ["Date", "Close", "Return (%)"]
                (outDisplay (computeOut Freq.daily [(⟨0, 0⟩, 4)]))
          ∧ (stepTwoRender (some [(⟨0, 0⟩, 4)]) Freq.daily).statsTable
              = some (statsOf (computeOut Freq.daily [(⟨0, 0⟩, 4)]))) :=
  ⟨by decide, successful_fetch_output [(⟨0, 0⟩, 4)] Freq.daily (by decide)⟩

theorem outDisplay_eq_map (out : List (Nat × ℚ × ℚ)) :
    outDisplay out = out.map (fun r => (r.1, round2 r.2.1, round2 r.2.2)) := by
  show List.filterMap (some ∘ fun r => (r.1, round2 r.2.1, round2 r.2.2)) out = _
  exact List.filterMap_eq_map _ ▸ rfl

/-- Claim C9: the displayed table is `out` with `Close` and `Return (%)`
rounded to 2 decimals and the coercion-failure filter applied (vacuously,
the columns being numeric after `dropna`), the statistics are computed from
the unrounded series, and the displayed row count never exceeds the
reported `Observations` count. -/
theorem display_rounds_stats_raw (freq : Freq) (rows : List (TradingDay × ℚ)) :
    outDisplay (computeOut freq rows)
        = (computeOut freq rows).map (fun r => (r.1, round2 r.2.1, round2 r.2.2))
      ∧ (outDisplay (computeOut freq rows)).length
          ≤ (statsOf (computeOut freq rows)).observations
      ∧ (statsOf (computeOut freq rows)).meanReturn = seriesMean (retCol (computeOut freq rows))
      ∧ (statsOf (computeOut freq rows)).varReturn = seriesVar (retCol (computeOut freq rows)) := by
  refine ⟨outDisplay_eq_map _, ?_, rfl, rfl⟩
  rw [outDisplay_eq_map]
  simp [statsOf]

/-- Modelled from the spec's words (§4, §8): the summary statistics of a
returns series — its length as the observation count, arithmetic mean,
smallest and largest value, sample standard deviation (represented by its
square, the `ddof = 1` sample variance), and the sign-based win/loss/flat
fractions as percentages. -/
def specStats (rets : List ℚ) : Stats where
  observations := rets.length
  meanReturn := rets.sum / rets.length
  minReturn := rets.min?
  maxReturn := rets.max?
  varReturn := (rets.map (fun x => (x - rets.sum / rets.length) ^ 2)).sum
      / ((rets.length : ℚ) - 1)
  winRate := (rets.countP (fun r => decide (0 < r)) : ℚ) / rets.length * 100
  lossRate := (rets.countP (fun r => decide (r < 0)) : ℚ) / rets.length * 100
  flatRate := (rets.countP (fun r => decide (r = 0)) : ℚ) / rets.length * 100

/-- Claim C5: the statistics the program shows are exactly the spec's
statistics of the resulting return series — the `Return (%)` column of
`out` at the chosen frequency — the observation count being that series'
length. -/
theorem stats_over_resulting_series (freq : Freq) (rows : List (TradingDay × ℚ)) :
    statsOf (computeOut freq rows) = specStats (retCol (computeOut freq rows))
      ∧ (statsOf (computeOut freq rows)).observations
          = (retCol (computeOut freq rows)).length := by
  have hlen : (computeOut freq rows).length = (retCol (computeOut freq rows)).length := by
    simp [retCol]
  constructor
  · unfold statsOf specStats seriesVar
    simp only [seriesMean]
    rw [hlen]
  · exact hlen

/-! ### Resampling lemmas (lines 116–126) -/

theorem resampleLast_cons_head {α : Type} (key : α → Nat) (r : α × ℚ) (l : List (α × ℚ)) :
    ∃ c tl, resampleLast key (r :: l) = (key r.1, c) :: tl := by
  obtain ⟨d, cv⟩ := r
  simp only [resampleLast]
  cases hR : resampleLast key l with
  | nil => exact ⟨cv, [], rfl⟩
  | cons p tail =>
    obtain ⟨k, c'⟩ := p
    dsimp only
    by_cases hk : key d = k
    · subst hk
      rw [if_pos rfl]
      exact ⟨c', tail, rfl⟩
    · rw [if_neg hk]
      exact ⟨cv, (k, c') :: tail, rfl⟩

theorem resampleLast_eq_nil {α : Type} (key : α → Nat) (t : List (α × ℚ))
    (h : resampleLast key t = []) : t = [] := by
  cases t with
  | nil => rfl
  | cons r l =>
    obtain ⟨c, tl, he⟩ := resampleLast_cons_head key r l
    rw [he] at h
    exact absurd h (by simp)

theorem resampleLast_snd_mem {α : Type} (key : α → Nat) (l : List (α × ℚ)) :
    ∀ k c, (k, c) ∈ resampleLast key l → c ∈ l.map Prod.snd := by
  induction l with
  | nil =>
    intro k c h
    simp [resampleLast] at h
  | cons x t ih =>
    obtain ⟨d, cv⟩ := x
    intro k c h
    simp only [resampleLast] at h
    rw [List.map_cons]
    cases hRt : resampleLast key t with
    | nil =>
      rw [hRt] at h
      simp only [List.mem_singleton, Prod.mk.injEq] at h
      rw [h.2]
      exact List.mem_cons_self _ _
    | cons p tail =>
      obtain ⟨k₁, c₁⟩ := p
      rw [hRt] at h
      dsimp only at h
      by_cases hd : key d = k₁
      · rw [if_pos hd] at h
        exact List.mem_cons_of_mem _ (ih k c (by rw [hRt]; exact h))
      · rw [if_neg hd] at h
        rcases List.mem_cons.mp h with he | hm
        · have hc : c = cv := congrArg Prod.snd he
          rw [hc]
          exact List.mem_cons_self _ _
        · exact List.mem_cons_of_mem _ (ih k c (by rw [hRt]; exact hm))

theorem getLast?_cons_of_ne {α : Type} (a : α) (l : List α) (h : l ≠ []) :
    (a :: l).getLast? = l.getLast? := by
  cases l with
  | nil => exact absurd rfl h
  | cons b t => rfl

theorem filter_last_extend {α : Type} (key : α → Nat) (d : α) (cv : ℚ) (t : List (α × ℚ))
    (k : Nat) (c : ℚ)
    (hrec : ((t.filter (fun r => key r.1 = k)).map Prod.snd).getLast? = some c) :
    ((((d, cv) :: t).filter (fun r => key r.1 = k)).map Prod.snd).getLast? = some c := by
  rw [List.filter_cons]
  by_cases hdk : key d = k
  · rw [if_pos (by simpa using hdk), List.map_cons]
    have hne : (t.filter (fun r => key r.1 = k)).map Prod.snd ≠ [] := by
      intro hnil
      rw [hnil] at hrec
      exact Option.noConfusion hrec
    rw [getLast?_cons_of_ne _ _ hne]
    exact hrec
  · rw [if_neg (by simpa using hdk)]
    exact hrec

theorem resampleLast_last_close {α : Type} (key : α → Nat) (l : List (α × ℚ))
    (hs : (l.map (fun r => key r.1)).Pairwise (· ≤ ·)) :
    ∀ k c, (k, c) ∈ resampleLast key l →
      ((l.filter (fun r => key r.1 = k)).map Prod.snd).getLast? = some c := by
  induction l with
  | nil =>
    intro k c h
    simp [resampleLast] at h
  | cons x t ih =>
    obtain ⟨d, cv⟩ := x
    intro k c hkc
    rw [List.map_cons, List.pairwise_cons] at hs
    have hhead : ∀ y ∈ t.map (fun r => key r.1), key d ≤ y := hs.1
    have hs' := hs.2
    simp only [resampleLast] at hkc
    cases hRt : resampleLast key t with
    | nil =>
      rw [hRt] at hkc
      have ht : t = [] := resampleLast_eq_nil key t hRt
      subst ht
      simp only [List.mem_singleton, Prod.mk.injEq] at hkc
      obtain ⟨rfl, rfl⟩ := hkc
      simp [List.filter_cons]
    | cons p tail =>
      obtain ⟨k₁, c₁⟩ := p
      rw [hRt] at hkc
      dsimp only at hkc
      obtain ⟨r₁, t', rfl⟩ : ∃ r₁ t', t = r₁ :: t' := by
        cases t with
        | nil =>
          rw [show resampleLast key ([] : List (α × ℚ)) = [] from rfl] at hRt
          exact absurd hRt (by simp)
        | cons a b => exact ⟨a, b, rfl⟩
      obtain ⟨ch, tlh, hh⟩ := resampleLast_cons_head key r₁ t'
      have hk₁ : k₁ = key r₁.1 := by
        have h12 := hh.symm.trans hRt
        injection h12 with h1 h2
        have := congrArg Prod.fst h1
        exact this.symm
      by_cases hd : key d = k₁
      · rw [if_pos hd] at hkc
        have hrec := ih hs' k c (by rw [hRt]; exact hkc)
        exact filter_last_extend key d cv _ k c hrec
      · rw [if_neg hd] at hkc
        rcases List.mem_cons.mp hkc with he | hm
        · have hk : k = key d := congrArg Prod.fst he
          have hc : c = cv := congrArg Prod.snd he
          subst hk
          subst hc
          have hne2 : key d ≠ key r₁.1 := by
            rw [hk₁] at hd
            exact hd
          have hlt : key d < key r₁.1 :=
            lt_of_le_of_ne (hhead _ (by simp)) hne2
          have hfilt : (r₁ :: t').filter (fun r => key r.1 = key d) = [] := by
            rw [List.filter_eq_nil_iff]
            intro r hr
            have hge : key r₁.1 ≤ key r.1 := by
              rcases List.mem_cons.mp hr with rfl | hr'
              · exact le_refl _
              · rw [List.map_cons, List.pairwise_cons] at hs'
                exact hs'.1 _ (List.mem_map.mpr ⟨r, hr', rfl⟩)
            simp only [decide_eq_true_eq]
            omega
          rw [List.filter_cons, if_pos (by simp), hfilt]
          rfl
        · have hrec := ih hs' k c (by rw [hRt]; exact hm)
          exact filter_last_extend key d cv _ k c hrec

/-- Claim C2: with dates sorted so the weekly and monthly bin keys are
non-decreasing along the rows, every resampled observation is the last
available close within its period — the `W-FRI` week of its Friday label,
or its calendar month — and the Weekly/Monthly branches compute percent
returns between these consecutive period-end closes, only after
resampling. -/
theorem weekly_monthly_period_end (rows : List (TradingDay × ℚ))
    (hw : (rows.map (fun r => weekFriKey r.1)).Pairwise (· ≤ ·))
    (hm : (rows.map (fun r => monthKey r.1)).Pairwise (· ≤ ·))
    (hpos : ∀ r ∈ rows, r.2 ≠ 0) :
    (∀ k c, (k, c) ∈ resampleLast weekFriKey rows →
        ((rows.filter (fun r => weekFriKey r.1 = k)).map Prod.snd).getLast? = some c)
      ∧ (∀ k c, (k, c) ∈ resampleLast monthKey rows →
          ((rows.filter (fun r => monthKey r.1 = k)).map Prod.snd).getLast? = some c)
      ∧ computeOut Freq.weekly rows
          = List.zipWith (fun (prev cur : Nat × ℚ) => (cur.1, cur.2, (cur.2 / prev.2 - 1) * 100))
              (resampleLast weekFriKey rows) (resampleLast weekFriKey rows).tail
      ∧ computeOut Freq.monthly rows
          = List.zipWith (fun (prev cur : Nat × ℚ) => (cur.1, cur.2, (cur.2 / prev.2 - 1) * 100))
              (resampleLast monthKey rows) (resampleLast monthKey rows).tail := by
  have hposW : ∀ r ∈ resampleLast weekFriKey rows, r.2 ≠ 0 := by
    intro r hr
    have h2 : r.2 ∈ rows.map Prod.snd := resampleLast_snd_mem weekFriKey rows r.1 r.2 hr
    obtain ⟨a, ha, hav⟩ := List.mem_map.mp h2
    rw [← hav]
    exact hpos a ha
  have hposM : ∀ r ∈ resampleLast monthKey rows, r.2 ≠ 0 := by
    intro r hr
    have h2 : r.2 ∈ rows.map Prod.snd := resampleLast_snd_mem monthKey rows r.1 r.2 hr
    obtain ⟨a, ha, hav⟩ := List.mem_map.mp h2
    rw [← hav]
    exact hpos a ha
  exact ⟨resampleLast_last_close weekFriKey rows hw,
         resampleLast_last_close monthKey rows hm,
         dropna_outRows _ hposW,
         dropna_outRows _ hposM⟩

/-- A concrete four-row daily price series spanning two `W-FRI` weeks
(days 0, 1, 7 from a Monday epoch) and two calendar months (day 35). -/
def sampleRows : List (TradingDay × ℚ) :=
  [(⟨0, 0⟩, 10), (⟨1, 0⟩, 12), (⟨7, 0⟩, 15), (⟨35, 1⟩, 20)]

/-- Witness for C2: on `sampleRows` the first `W-FRI` bin (Friday, day 4)
keeps the last close of its week, 12. -/
theorem weekly_monthly_period_end_witness :
    ((sampleRows.map (fun r => weekFriKey r.1)).Pairwise (· ≤ ·)
        ∧ (sampleRows.map (fun r => monthKey r.1)).Pairwise (· ≤ ·)
        ∧ (∀ r ∈ sampleRows, r.2 ≠ 0))
      ∧ ((sampleRows.filter (fun r => weekFriKey r.1 = 4)).map Prod.snd).getLast? = some 12 :=
  ⟨⟨by decide, by decide, by decide⟩,
   (weekly_monthly_period_end sampleRows (by decide) (by decide) (by decide)).1
     4 12 (by decide)⟩

end StockScanner
